import Mathlib

/-!
Shallow embedding of the TL2-style software transactional memory from
`src/tm.cpp`, `src/VersionSpinLock.cpp`, `src/LinkedList.cpp`,
`src/Transaction.cpp` and `src/Region.{h,cpp}`.

Modelling conventions:
* Machine addresses (`void*`, `uintptr_t`) are `Nat`; byte memory is a total
  function `Nat → Nat`.
* `std::atomic_int` lock words are `Int`; `std::atomic_uint current_txs` is
  `Nat`; the global version clock is `Int` (overflow is irrelevant to the
  claims considered).
* The C expression `s & 1` on a two's-complement `int` equals `s % 2` with
  `%` the Euclidean remainder, and `s >> 1` (arithmetic shift) equals the
  floor division `s / 2`; both identities hold for negative `s` as well, so
  the bit operations are rendered by `%` and `/`.
* The compile-time constants `LOCK_ARRAY_SIZE` and `MAX_SIMUL_TXS` live in
  `glob_constants.h`, which is not part of the sources; the spec describes
  them only as compile-time naturals, so every definition takes them as
  explicit parameters `L` and `M`.
* Sequential semantics: each operation is a function from the pre-state to
  the post-state; atomic loads and CAS are plain reads and writes.
-/

namespace TM

/-- Pointwise update of a function modelling a store into an array cell or
a byte of memory. -/
def updf {α : Type} (f : Nat → α) (i : Nat) (v : α) : Nat → α :=
  fun j => if j = i then v else f j

lemma updf_self {α : Type} (f : Nat → α) (i : Nat) (v : α) : updf f i v i = v := by
  simp [updf]

lemma updf_ne {α : Type} (f : Nat → α) (i j : Nat) (v : α) (h : j ≠ i) :
    updf f i v j = f j := by
  simp [updf, h]

/-! ### Versioned spin lock (`VersionSpinLock.cpp`)

A lock word `s : Int` packs the lock bit in bit 0 and the version in the
remaining bits. -/

/-- Bit 0 of the lock word: `state & 1` in `versionSpinLock_acquire` and in
the validation checks of `tm.cpp`. -/
def vslLocked (s : Int) : Bool := decide (s % 2 = 1)

/-- Version bits of the lock word: `lock_state >> 0x1` in `tm.cpp`
(arithmetic shift right on `int`, i.e. floor division by 2). -/
def vslVersion (s : Int) : Int := s / 2

/-- `versionSpinLock_acquire`: fail if bit 0 is set, otherwise
`compare_exchange_strong(state, state | 1)`; for an even word
`state | 1 = state + 1`.  Sequentially the CAS always succeeds.  Returns
the success flag and the new lock word. -/
def vslAcquire (s : Int) : Bool × Int :=
  if vslLocked s then (false, s) else (true, s + 1)

/-- `versionSpinLock_release`: `fetch_sub(1)`, clearing bit 0 of a held
lock without touching the version bits. -/
def vslRelease (s : Int) : Int := s - 1

/-- `versionSpinLock_set_and_release`: store `version << 1`, publishing the
new version with the lock bit cleared. -/
def vslSetAndRelease (version : Int) : Int := 2 * version

/-! ### Read/write-set nodes and linked list (`LinkedList.{h,cpp}`) -/

/-- A node of a read or write set (`struct Node`).  `val` holds the pending
bytes of a write-set entry; read-set nodes are built with a null value
pointer in the source, rendered here by the empty list. -/
structure Node where
  address : Nat
  val : List Nat
deriving DecidableEq, Repr

/-- `LinkedList::add`: append at the tail. -/
def LinkedList.add (l : List Node) (n : Node) : List Node := l ++ [n]

/-- `LinkedList::get`: walk from the head; return `none` as soon as a node
with a larger address is met (the source's early exit), `some` on an exact
match. -/
def LinkedList.get : List Node → Nat → Option Node
  | [], _ => none
  | n :: rest, addr =>
    if n.address > addr then none
    else if n.address = addr then some n
    else LinkedList.get rest addr

/-! ### Byte memory -/

/-- Read `n` consecutive bytes starting at address `a`. -/
def readBytes (mem : Nat → Nat) (a n : Nat) : List Nat :=
  (List.range n).map fun i => mem (a + i)

/-- Write the given bytes consecutively starting at address `a`
(`memcpy` into shared or private memory). -/
def writeBytes : (Nat → Nat) → Nat → List Nat → (Nat → Nat)
  | mem, _, [] => mem
  | mem, a, b :: rest => writeBytes (updf mem a b) (a + 1) rest

/-- Offsets visited by `for (size_t i = 0; i < size; i += align)`:
`0, align, 2*align, …` while `< size`. -/
def wordOffsets (size align : Nat) : List Nat :=
  (List.range ((size + align - 1) / align)).map (· * align)

/-! ### Region and transaction state (`Region.h`, `Transaction.h`) -/

/-- The shared region: byte memory of the first segment, the stripe lock
array (a total function; indices are always reduced mod `L`), the global
version clock, the admission counter `current_txs`, and the immutable
`size` and `align`.  Dynamic segments (`tm_alloc`) are outside the claims
considered and are not modelled. -/
structure Region where
  mem : Nat → Nat
  locks : Nat → Int
  clock : Int
  current_txs : Nat
  align : Nat
  size : Nat

/-- `struct Transaction`: the read-only flag, the write and read sets, the
read version `rv` snapshotted at begin and the write version `wv`
(`-1` until commit). -/
structure Transaction where
  is_ro : Bool
  writeList : List Node
  readList : List Node
  rv : Int
  wv : Int
deriving DecidableEq

/-- `tm_begin`: allocate a fresh transaction with empty sets,
`rv := region->getClockVersion()` and `wv := -1`. -/
def tm_begin (r : Region) (is_ro : Bool) : Transaction :=
  { is_ro := is_ro, writeList := [], readList := [], rv := r.clock, wv := -1 }

/-! ### tm_write (`tm.cpp`) -/

/-- In-place overwrite of the value of the node that `LinkedList::get`
finds: the functional rendering of `memcpy(node->val, source, align)`
through the returned node pointer.  Mirrors the traversal of `get`,
including its early exit. -/
def updateVal : List Node → Nat → List Nat → List Node
  | [], _, _ => []
  | n :: rest, addr, bytes =>
    if n.address > addr then n :: rest
    else if n.address = addr then { n with val := bytes } :: rest
    else n :: updateVal rest addr bytes

/-- One pass of the `tm_write` loop over the word offsets: look the target
word up in the write set, overwrite the found node's value in place, or
append a fresh node carrying a copy of the `align` source bytes. -/
def tm_write_loop (align : Nat) (smem : Nat → Nat) (src tgt : Nat) :
    List Node → List Nat → List Node
  | wl, [] => wl
  | wl, i :: rest =>
    let bytes := readBytes smem (src + i) align
    let wl2 :=
      match LinkedList.get wl (tgt + i) with
      | some _ => updateVal wl (tgt + i) bytes
      | none => LinkedList.add wl { address := tgt + i, val := bytes }
    tm_write_loop align smem src tgt wl2 rest

/-- Result of `tm_write`: the returned flag, the (unmodified) region and
the updated transaction. -/
structure WriteResult where
  ok : Bool
  region : Region
  tx : Transaction

/-- `tm_write`: buffer the private bytes into the write set, word by word.
The source never stores to the region (it only reads `region->align`), so
the region is passed through unchanged, and the function always returns
`true`. -/
def tm_write (r : Region) (tx : Transaction) (smem : Nat → Nat)
    (src size tgt : Nat) : WriteResult :=
  { ok := true
    region := r
    tx := { tx with
              writeList :=
                tm_write_loop r.align smem src tgt tx.writeList
                  (wordOffsets size r.align) } }

/-! ### tm_read (`tm.cpp`) -/

/-- Result of `tm_read`: the returned flag, the transaction (deallocated
by the source on abort) and the private target memory, including the bytes
already copied before an abort. -/
structure ReadResult where
  ok : Bool
  tx : Transaction
  target : Nat → Nat

/-- Speculative read of one word: sample the stripe's lock word, copy the
`align` bytes, sample again, and fail if the sample changed, the version
exceeds `rv`, or the lock bit is set.  Sequentially the two samples always
agree; the comparison is kept from the source. -/
def specRead (L : Nat) (r : Region) (rv : Int) (sa ta : Nat)
    (tmem : Nat → Nat) : Bool × (Nat → Nat) :=
  let idx := sa % L
  let pre := r.locks idx
  let tmem2 := writeBytes tmem ta (readBytes r.mem sa r.align)
  let post := r.locks idx
  if pre ≠ post ∨ vslVersion post > rv ∨ vslLocked post = true then
    (false, tmem2)
  else
    (true, tmem2)

/-- The read-only loop of `tm_read`: speculative reads only, no read-set
bookkeeping. -/
def tm_read_ro_loop (L : Nat) (r : Region) (rv : Int) (src tgt : Nat) :
    (Nat → Nat) → List Nat → Bool × (Nat → Nat)
  | tmem, [] => (true, tmem)
  | tmem, i :: rest =>
    match specRead L r rv (src + i) (tgt + i) tmem with
    | (true, tmem2) => tm_read_ro_loop L r rv src tgt tmem2 rest
    | (false, tmem2) => (false, tmem2)

/-- The read-write loop of `tm_read`: first look the word up in the write
set (`LinkedList::get`); on a hit copy `align` bytes of the pending value,
otherwise do the speculative read and append `{ source + i }` (null value
pointer) to the read set. -/
def tm_read_rw_loop (L : Nat) (r : Region) (src tgt : Nat) :
    Transaction → (Nat → Nat) → List Nat → ReadResult
  | tx, tmem, [] => { ok := true, tx := tx, target := tmem }
  | tx, tmem, i :: rest =>
    match LinkedList.get tx.writeList (src + i) with
    | some node =>
      tm_read_rw_loop L r src tgt tx
        (writeBytes tmem (tgt + i) (node.val.take r.align)) rest
    | none =>
      match specRead L r tx.rv (src + i) (tgt + i) tmem with
      | (false, tmem2) => { ok := false, tx := tx, target := tmem2 }
      | (true, tmem2) =>
        tm_read_rw_loop L r src tgt
          { tx with readList :=
              LinkedList.add tx.readList { address := src + i, val := [] } }
          tmem2 rest

/-- `tm_read`: dispatch on `is_ro` and run the word loop. -/
def tm_read (L : Nat) (r : Region) (tx : Transaction) (src size tgt : Nat)
    (tmem : Nat → Nat) : ReadResult :=
  if tx.is_ro then
    let res := tm_read_ro_loop L r tx.rv src tgt tmem (wordOffsets size r.align)
    { ok := res.1, tx := tx, target := res.2 }
  else
    tm_read_rw_loop L r src tgt tx tmem (wordOffsets size r.align)

/-! ### tm_end (`tm.cpp`, `Transaction.cpp`) -/

/-- The lock-acquisition loop of `tm_end`: walk the write set in order,
`try_acquire` each entry's stripe, and stop at the first failure.  Returns
the lock array after the attempts, the success flag, and the list of nodes
whose stripes were acquired (on failure: the nodes strictly before the
failing one, which the source then releases from the head). -/
def acquireLoop (L : Nat) : (Nat → Int) → List Node → ((Nat → Int) × Bool × List Node)
  | locks, [] => (locks, true, [])
  | locks, n :: rest =>
    let idx := n.address % L
    if vslLocked (locks idx) then
      (locks, false, [])
    else
      let res := acquireLoop L (updf locks idx (locks idx + 1)) rest
      (res.1, res.2.1, n :: res.2.2)

/-- Release the stripes of the given nodes in list order
(`versionSpinLock_release` on each, i.e. `fetch_sub(1)`). -/
def releaseLocks (L : Nat) : (Nat → Int) → List Node → (Nat → Int)
  | locks, [] => locks
  | locks, n :: rest =>
    let idx := n.address % L
    releaseLocks L (updf locks idx (vslRelease (locks idx))) rest

/-- The read-set validation loop of `tm_end`: every read stripe must be
unlocked with version at most `rv`. -/
def validateReads (L : Nat) (locks : Nat → Int) (rv : Int) : List Node → Bool
  | [] => true
  | n :: rest =>
    let st := locks (n.address % L)
    if vslVersion st > rv ∨ vslLocked st = true then false
    else validateReads L locks rv rest

/-- `transaction_commit_and_release_locks`: for each write-set node in
order, `memcpy(node->address, node->val, align)` into shared memory, then
`set_and_release(wv)` on its stripe. -/
def commitWriteBack (L align : Nat) (wv : Int) :
    (Nat → Nat) → (Nat → Int) → List Node → ((Nat → Nat) × (Nat → Int))
  | mem, locks, [] => (mem, locks)
  | mem, locks, n :: rest =>
    let idx := n.address % L
    commitWriteBack L align wv (writeBytes mem n.address (n.val.take align))
      (updf locks idx (vslSetAndRelease wv)) rest

/-- Result of `tm_end`.  `wv` records the write version assigned by
`incrementClockVersion` when step 2 is reached (instrumentation only), and
`admission_failed` records an abort at the step-0 admission check
(instrumentation only); neither alters the modelled behaviour. -/
structure EndResult where
  ok : Bool
  region : Region
  wv : Option Int
  admission_failed : Bool

/-- `tm_end`, parametric in `LOCK_ARRAY_SIZE = L` and `MAX_SIMUL_TXS = M`:
trivial commit for read-only or empty-write-set transactions; admission
check `current_txs > M`; `fetch_add(1)` on the counter; lock acquisition
with rollback of the acquired nodes on failure; `wv := clock.fetch_add(1) + 1`;
read-set validation (skipped when `rv + 1 = wv`), releasing every
write-set stripe on failure; write-back and release; `fetch_sub(1)` on the
counter.  `c + 1 - 1` renders the `fetch_add` . `fetch_sub` pair. -/
def tm_end (L M : Nat) (r : Region) (tx : Transaction) : EndResult :=
  if tx.is_ro = true ∨ tx.writeList = [] then
    { ok := true, region := r, wv := none, admission_failed := false }
  else if r.current_txs > M then
    { ok := false, region := r, wv := none, admission_failed := true }
  else
    match acquireLoop L r.locks tx.writeList with
    | (locks1, false, acquired) =>
      { ok := false
        region := { r with locks := releaseLocks L locks1 acquired,
                           current_txs := r.current_txs + 1 - 1 }
        wv := none
        admission_failed := false }
    | (locks1, true, _) =>
      if tx.rv + 1 ≠ r.clock + 1 ∧ validateReads L locks1 tx.rv tx.readList = false then
        { ok := false
          region := { r with clock := r.clock + 1,
                             locks := releaseLocks L locks1 tx.writeList,
                             current_txs := r.current_txs + 1 - 1 }
          wv := some (r.clock + 1)
          admission_failed := false }
      else
        { ok := true
          region := { r with clock := r.clock + 1,
                             mem := (commitWriteBack L r.align (r.clock + 1) r.mem locks1 tx.writeList).1,
                             locks := (commitWriteBack L r.align (r.clock + 1) r.mem locks1 tx.writeList).2,
                             current_txs := r.current_txs + 1 - 1 }
          wv := some (r.clock + 1)
          admission_failed := false }

/-! ### Helper lemmas on the lock-acquisition and release loops -/

lemma vslLocked_add_one (s : Int) (h : vslLocked s = false) :
    vslLocked (s + 1) = true := by
  simp only [vslLocked, decide_eq_false_iff_not, decide_eq_true_eq] at h ⊢
  omega

/-- Invariants of the acquisition loop: the stripes of the acquired nodes
are pairwise distinct, every other lock word is untouched, every acquired
stripe's word grew by exactly one from an unlocked word, and on success
the acquired nodes are the whole write set. -/
lemma acquireLoop_spec (L : Nat) (nodes : List Node) : ∀ locks : Nat → Int,
    ((acquireLoop L locks nodes).2.2.map (fun n => n.address % L)).Nodup ∧
    (∀ j, j ∉ (acquireLoop L locks nodes).2.2.map (fun n => n.address % L) →
      (acquireLoop L locks nodes).1 j = locks j) ∧
    (∀ n ∈ (acquireLoop L locks nodes).2.2,
      (acquireLoop L locks nodes).1 (n.address % L) = locks (n.address % L) + 1) ∧
    (∀ n ∈ (acquireLoop L locks nodes).2.2,
      vslLocked (locks (n.address % L)) = false) ∧
    ((acquireLoop L locks nodes).2.1 = true →
      (acquireLoop L locks nodes).2.2 = nodes) := by
  induction nodes with
  | nil => intro locks; simp [acquireLoop]
  | cons n rest ih =>
    intro locks
    by_cases hl : vslLocked (locks (n.address % L)) = true
    · simp [acquireLoop, hl]
    · have hl' : vslLocked (locks (n.address % L)) = false :=
        Bool.eq_false_iff.mpr hl
      obtain ⟨N2, F2, A2, P2, U2⟩ :=
        ih (updf locks (n.address % L) (locks (n.address % L) + 1))
      have hstep : acquireLoop L locks (n :: rest) =
          ((acquireLoop L (updf locks (n.address % L) (locks (n.address % L) + 1)) rest).1,
           (acquireLoop L (updf locks (n.address % L) (locks (n.address % L) + 1)) rest).2.1,
           n :: (acquireLoop L (updf locks (n.address % L) (locks (n.address % L) + 1)) rest).2.2) := by
        simp [acquireLoop, hl']
      have K : n.address % L ∉
          ((acquireLoop L (updf locks (n.address % L) (locks (n.address % L) + 1)) rest).2.2.map
            (fun m => m.address % L)) := by
        intro hmem
        obtain ⟨m, hm, hms⟩ := List.mem_map.mp hmem
        have hp := P2 m hm
        rw [hms, updf_self, vslLocked_add_one _ hl'] at hp
        exact Bool.true_eq_false.mp hp
      rw [hstep]
      refine ⟨?_, ?_, ?_, ?_, ?_⟩
      · rw [List.map_cons]
        exact List.nodup_cons.mpr ⟨K, N2⟩
      · intro j hj
        simp only [List.map_cons, List.mem_cons, not_or] at hj
        rw [F2 j hj.2, updf_ne _ _ _ _ hj.1]
      · intro m hm
        rcases List.mem_cons.mp hm with hm | hm
        · subst hm
          rw [F2 _ K, updf_self]
        · have hms : m.address % L ≠ n.address % L := by
            intro he
            exact K (List.mem_map.mpr ⟨m, hm, he⟩)
          rw [A2 m hm, updf_ne _ _ _ _ hms]
      · intro m hm
        rcases List.mem_cons.mp hm with hm | hm
        · subst hm; exact hl'
        · have hms : m.address % L ≠ n.address % L := by
            intro he
            exact K (List.mem_map.mpr ⟨m, hm, he⟩)
          have hp := P2 m hm
          rwa [updf_ne _ _ _ _ hms] at hp
      · intro hok
        exact congrArg (n :: ·) (U2 hok)

/-- Releasing (in list order) a set of nodes with pairwise-distinct
stripes, each of whose lock words is exactly one above its old value,
restores the old lock array. -/
lemma releaseLocks_restore (L : Nat) (acq : List Node) :
    ∀ locks0 locks1 : Nat → Int,
      (acq.map (fun n => n.address % L)).Nodup →
      (∀ n ∈ acq, locks1 (n.address % L) = locks0 (n.address % L) + 1) →
      (∀ j, j ∉ acq.map (fun n => n.address % L) → locks1 j = locks0 j) →
      releaseLocks L locks1 acq = locks0 := by
  induction acq with
  | nil =>
    intro l0 l1 _ _ hf
    funext j
    simpa [releaseLocks] using hf j (by simp)
  | cons n rest ih =>
    intro l0 l1 hnd hadd hf
    have hnotin : n.address % L ∉ rest.map (fun m => m.address % L) :=
      (List.nodup_cons.mp hnd).1
    have hstep : releaseLocks L l1 (n :: rest) =
        releaseLocks L (updf l1 (n.address % L) (vslRelease (l1 (n.address % L)))) rest := by
      simp [releaseLocks]
    rw [hstep]
    apply ih
    · exact (List.nodup_cons.mp hnd).2
    · intro m hm
      have hms : m.address % L ≠ n.address % L := by
        intro he
        exact hnotin (List.mem_map.mpr ⟨m, hm, he⟩)
      rw [updf_ne _ _ _ _ hms]
      exact hadd m (List.mem_cons_of_mem _ hm)
    · intro j hj
      by_cases hji : j = n.address % L
      · subst hji
        rw [updf_self, vslRelease, hadd n (List.mem_cons_self _ _)]
        omega
      · rw [updf_ne _ _ _ _ hji]
        apply hf
        simp only [List.map_cons, List.mem_cons, not_or]
        exact ⟨hji, hj⟩

/-- Releasing exactly the nodes acquired by the acquisition loop restores
the lock array the loop started from. -/
lemma acquireLoop_release (L : Nat) (nodes : List Node) (locks : Nat → Int) :
    releaseLocks L (acquireLoop L locks nodes).1 (acquireLoop L locks nodes).2.2 = locks := by
  obtain ⟨N, F, A, -, -⟩ := acquireLoop_spec L nodes locks
  exact releaseLocks_restore L _ _ _ N A F

/-! ### Concrete states used by counterexamples and witnesses -/

/-- A freshly created region: zero-filled memory, all lock words 0, clock
0, no committing transaction, alignment 1, size 16. -/
def regionZero : Region :=
  { mem := fun _ => 0, locks := fun _ => 0, clock := 0, current_txs := 0,
    align := 1, size := 16 }

/-- The same region while one other writer is inside its commit phase
(`current_txs = 1`). -/
def regionBusy : Region :=
  { mem := fun _ => 0, locks := fun _ => 0, clock := 0, current_txs := 1,
    align := 1, size := 16 }

/-- Private source buffers holding the bytes 7, 5 and 9 everywhere. -/
def smem7 : Nat → Nat := fun _ => 7

/-- Private source buffer holding the byte 5 everywhere. -/
def smem5 : Nat → Nat := fun _ => 5

/-- Private source buffer holding the byte 9 everywhere. -/
def smem9 : Nat → Nat := fun _ => 9

/-- A read-write transaction after `tm_write` of byte 7 to shared address 8. -/
def txAfterW8 : Transaction :=
  (tm_write regionZero (tm_begin regionZero false) smem7 100 1 8).tx

/-- The same transaction after a second `tm_write` of byte 5 to shared
address 0 (a lower address than the first write). -/
def txAfterW8W0 : Transaction :=
  (tm_write regionZero txAfterW8 smem5 200 1 0).tx

/-- The same transaction after a third `tm_write` of byte 9 again to
shared address 0. -/
def txAfterW8W0W0 : Transaction :=
  (tm_write regionZero txAfterW8W0 smem9 300 1 0).tx

/-- A writer transaction with a one-word write set at address 0. -/
def txWriter : Transaction :=
  { is_ro := false, writeList := [{ address := 0, val := [1] }],
    readList := [], rv := 0, wv := -1 }

/-- A read-only transaction. -/
def txRo : Transaction :=
  { is_ro := true, writeList := [], readList := [], rv := 0, wv := -1 }

/-- A writer whose two write-set addresses 0 and 8 alias to the same
stripe when `LOCK_ARRAY_SIZE = 8`. -/
def txDup : Transaction :=
  { is_ro := false,
    writeList := [{ address := 0, val := [1] }, { address := 8, val := [2] }],
    readList := [], rv := 0, wv := -1 }

/-! ### Claims -/

/-- C1 (code bug, failing input): in a single read-write transaction on a
fresh region, `tm_write` of byte 7 to address 8 followed by `tm_write` of
byte 5 to address 0 leaves both pending entries in the write set, yet
`LinkedList::get` misses the entry for address 0 (its early exit fires on
the head node's larger address 8), so `tm_read` of address 0 succeeds and
copies the shared byte 0 into the private target instead of the pending
byte 5 — read-own-writes fails when a lower address is written after a
higher one. -/
theorem tm_read_misses_own_write :
    txAfterW8W0.writeList.map (fun n => (n.address, n.val)) = [(8, [7]), (0, [5])] ∧
    LinkedList.get txAfterW8W0.writeList 0 = none ∧
    (tm_read 8 regionZero txAfterW8W0 0 1 300 (fun _ => 99)).ok = true ∧
    (tm_read 8 regionZero txAfterW8W0 0 1 300 (fun _ => 99)).target 300 = 0 := by
  decide

/-- C2 (code bug, failing input): after `tm_write` of 7 to address 8, of 5
to address 0, and of 9 again to address 0, the write set holds two entries
for address 0 — the third write appended a duplicate node instead of
overwriting the existing entry in place, because `LinkedList::get` missed
the entry for address 0 behind the head node's larger address. -/
theorem tm_write_appends_duplicate :
    txAfterW8W0W0.writeList.map (fun n => (n.address, n.val))
      = [(8, [7]), (0, [5]), (0, [9])] ∧
    (txAfterW8W0W0.writeList.filter (fun n => n.address == 0)).length = 2 := by
  decide

/-- C3: whenever `tm_end` returns false — at the admission check, at lock
acquisition, or at read-set validation — the shared memory, the whole
stripe lock array (each acquired lock released back to its pre-acquisition
word, lock bit cleared), and the admission counter are exactly as before
the call. -/
theorem tm_end_abort_frame (L M : Nat) (r : Region) (tx : Transaction)
    (h : (tm_end L M r tx).ok = false) :
    (tm_end L M r tx).region.mem = r.mem ∧
    (tm_end L M r tx).region.locks = r.locks ∧
    (tm_end L M r tx).region.current_txs = r.current_txs := by
  by_cases h1 : tx.is_ro = true ∨ tx.writeList = []
  · simp [tm_end, h1] at h
  · by_cases h2 : r.current_txs > M
    · simp [tm_end, h1, h2]
    · rcases hacq : acquireLoop L r.locks tx.writeList with ⟨locks1, ok1, acq⟩
      have hrel := acquireLoop_release L tx.writeList r.locks
      rw [hacq] at hrel
      cases ok1 with
      | false => simp [tm_end, h1, h2, hacq, hrel]
      | true =>
        obtain ⟨-, -, -, -, U⟩ := acquireLoop_spec L tx.writeList r.locks
        rw [hacq] at U
        have hall : acq = tx.writeList := by simpa using U (by simp)
        simp only at hrel
        rw [hall] at hrel
        by_cases hv : tx.rv = r.clock
        · simp [tm_end, h1, h2, hacq, hv] at h
        · by_cases hval : validateReads L locks1 tx.rv tx.readList = false
          · simp [tm_end, h1, h2, hacq, hv, hval, hrel]
          · have hval' : validateReads L locks1 tx.rv tx.readList = true := by
              simpa using hval
            simp [tm_end, h1, h2, hacq, hv, hval'] at h

/-- C3 witness: a concrete aborting call (admission check fails while a
writer is busy) leaves memory, locks and the counter unchanged. -/
theorem tm_end_abort_frame_witness :
    (tm_end 8 0 regionBusy txWriter).ok = false ∧
    ((tm_end 8 0 regionBusy txWriter).region.mem = regionBusy.mem ∧
     (tm_end 8 0 regionBusy txWriter).region.locks = regionBusy.locks ∧
     (tm_end 8 0 regionBusy txWriter).region.current_txs = regionBusy.current_txs) :=
  ⟨by decide, tm_end_abort_frame 8 0 regionBusy txWriter (by decide)⟩

/-- C4 counterexample: with `MAX_SIMUL_TXS = 0`, a writer running alone
(`current_txs = 0`) passes the admission check `current_txs > 0` and
commits — `tm_end` returns true, refuting the claim that any writer's
`tm_end` returns false at step 0. -/
theorem tm_end_admission_counterexample :
    (tm_end 8 0 regionZero txWriter).ok = true ∧
    (tm_end 8 0 regionZero txWriter).admission_failed = false := by
  decide

/-- C4 (amended): with `MAX_SIMUL_TXS = 0`, a writer's `tm_end` aborts at
the step-0 admission check if and only if the admission counter is nonzero
at the call; a lone writer passes admission. -/
theorem tm_end_admission_iff (L : Nat) (r : Region) (tx : Transaction)
    (hro : tx.is_ro = false) (hwl : tx.writeList ≠ []) :
    ((tm_end L 0 r tx).admission_failed = true ↔ 0 < r.current_txs) := by
  have h1 : ¬ (tx.is_ro = true ∨ tx.writeList = []) := by simp [hro, hwl]
  by_cases h2 : r.current_txs > 0
  · simp [tm_end, h1, h2]
  · rcases hacq : acquireLoop L r.locks tx.writeList with ⟨locks1, ok1, acq⟩
    cases ok1 with
    | false =>
      simp [tm_end, h1, h2, hacq]
    | true =>
      by_cases hv : tx.rv = r.clock
      · simp [tm_end, h1, h2, hacq, hv]
      · by_cases hval : validateReads L locks1 tx.rv tx.readList = false
        · simp [tm_end, h1, h2, hacq, hv, hval]
        · have hval' : validateReads L locks1 tx.rv tx.readList = true := by
            simpa using hval
          simp [tm_end, h1, h2, hacq, hv, hval']

/-- C4 witness for the amended claim: with the counter at 1 the writer is
rejected at admission. -/
theorem tm_end_admission_iff_witness :
    (tm_end 8 0 regionBusy txWriter).admission_failed = true :=
  (tm_end_admission_iff 8 regionBusy txWriter rfl (by decide)).mpr (by decide)

/-- C6: a writer that commits was assigned, by `incrementClockVersion`,
the write version `wv = clock + 1` — strictly greater than its read
version, given that the clock has only grown since `rv` was snapshotted
(`rv ≤ clock`). -/
theorem tm_end_commit_wv (L M : Nat) (r : Region) (tx : Transaction)
    (hro : tx.is_ro = false) (hwl : tx.writeList ≠ [])
    (hclk : tx.rv ≤ r.clock) (hok : (tm_end L M r tx).ok = true) :
    (tm_end L M r tx).wv = some (r.clock + 1) ∧ tx.rv < r.clock + 1 := by
  have h1 : ¬ (tx.is_ro = true ∨ tx.writeList = []) := by simp [hro, hwl]
  by_cases h2 : r.current_txs > M
  · simp [tm_end, h1, h2] at hok
  · rcases hacq : acquireLoop L r.locks tx.writeList with ⟨locks1, ok1, acq⟩
    cases ok1 with
    | false => simp [tm_end, h1, h2, hacq] at hok
    | true =>
      refine ⟨?_, by omega⟩
      by_cases hv : tx.rv = r.clock
      · simp [tm_end, h1, h2, hacq, hv]
      · by_cases hval : validateReads L locks1 tx.rv tx.readList = false
        · simp [tm_end, h1, h2, hacq, hv, hval] at hok
        · have hval' : validateReads L locks1 tx.rv tx.readList = true := by
            simpa using hval
          simp [tm_end, h1, h2, hacq, hv, hval']

/-- C6 witness: a concrete committing writer gets `wv = some 1 > rv = 0`. -/
theorem tm_end_commit_wv_witness :
    (tm_end 8 4 regionZero txWriter).wv = some (regionZero.clock + 1) ∧
    txWriter.rv < regionZero.clock + 1 :=
  tm_end_commit_wv 8 4 regionZero txWriter rfl (by decide) (by decide) (by decide)

/-- C7: a read-only transaction, or one with an empty write set, commits
trivially: `tm_end` returns true and the region — memory, clock, admission
counter and every stripe lock word — is exactly the one passed in. -/
theorem tm_end_trivial_commit (L M : Nat) (r : Region) (tx : Transaction)
    (h : tx.is_ro = true ∨ tx.writeList = []) :
    (tm_end L M r tx).ok = true ∧ (tm_end L M r tx).region = r := by
  simp [tm_end, h]

/-- C7 witness: a concrete read-only transaction commits and leaves the
region untouched. -/
theorem tm_end_trivial_commit_witness :
    (tm_end 8 4 regionZero txRo).ok = true ∧
    (tm_end 8 4 regionZero txRo).region = regionZero :=
  tm_end_trivial_commit 8 4 regionZero txRo (Or.inl rfl)

/-- C8: `tm_write` always returns true, passes the region through
unchanged, modifies only the write set of the transaction (read set,
flags and versions preserved), and its result does not depend on the
stripe lock array — no lock is inspected. -/
theorem tm_write_frame (r : Region) (tx : Transaction) (smem : Nat → Nat)
    (src size tgt : Nat) :
    (tm_write r tx smem src size tgt).ok = true ∧
    (tm_write r tx smem src size tgt).region = r ∧
    (tm_write r tx smem src size tgt).tx.readList = tx.readList ∧
    (tm_write r tx smem src size tgt).tx.is_ro = tx.is_ro ∧
    (tm_write r tx smem src size tgt).tx.rv = tx.rv ∧
    (tm_write r tx smem src size tgt).tx.wv = tx.wv ∧
    ∀ lk : Nat → Int,
      (tm_write { r with locks := lk } tx smem src size tgt).tx
        = (tm_write r tx smem src size tgt).tx :=
  ⟨rfl, rfl, rfl, rfl, rfl, rfl, fun _ => rfl⟩

/-- C9: a writer whose write set contains two entries on the same lock
stripe never commits (`tm_end` returns false: the second `try_acquire` on
the self-held stripe fails, or admission had already rejected it), and
conversely whenever `tm_end` commits a writer, the stripe indices of its
write-set entries are pairwise distinct, so the write-back phase applies
`set_and_release` to each stripe exactly once. -/
theorem tm_end_stripes_distinct (L M : Nat) (r : Region) (tx : Transaction)
    (hro : tx.is_ro = false) :
    (¬ (tx.writeList.map (fun n => n.address % L)).Nodup →
      (tm_end L M r tx).ok = false) ∧
    ((tm_end L M r tx).ok = true →
      (tx.writeList.map (fun n => n.address % L)).Nodup) := by
  have main : (tm_end L M r tx).ok = true →
      (tx.writeList.map (fun n => n.address % L)).Nodup := by
    intro hok
    by_cases h1 : tx.is_ro = true ∨ tx.writeList = []
    · rcases h1 with h1 | h1
      · rw [hro] at h1; cases h1
      · simp [h1]
    · by_cases h2 : r.current_txs > M
      · simp [tm_end, h1, h2] at hok
      · rcases hacq : acquireLoop L r.locks tx.writeList with ⟨locks1, ok1, acq⟩
        cases ok1 with
        | false => simp [tm_end, h1, h2, hacq] at hok
        | true =>
          obtain ⟨N, -, -, -, U⟩ := acquireLoop_spec L tx.writeList r.locks
          rw [hacq] at N U
          have hall : acq = tx.writeList := by simpa using U (by simp)
          rw [← hall]
          simpa using N
  refine ⟨fun hdup => ?_, main⟩
  cases hok : (tm_end L M r tx).ok with
  | false => rfl
  | true => exact absurd (main hok) hdup

/-- C9 witness: with `LOCK_ARRAY_SIZE = 8`, addresses 0 and 8 share stripe
0 and the writer's `tm_end` fails. -/
theorem tm_end_stripes_distinct_witness :
    (tm_end 8 4 regionZero txDup).ok = false :=
  (tm_end_stripes_distinct 8 4 regionZero txDup rfl).1 (by decide)

/-- C10: `tm_begin` always yields a transaction (never an invalid handle)
carrying the requested read-only flag, `rv` equal to the region's clock at
the call, `wv = -1`, and empty read and write sets. -/
theorem tm_begin_fresh (r : Region) (b : Bool) :
    (tm_begin r b).is_ro = b ∧ (tm_begin r b).rv = r.clock ∧
    (tm_begin r b).wv = -1 ∧ (tm_begin r b).writeList = [] ∧
    (tm_begin r b).readList = [] :=
  ⟨rfl, rfl, rfl, rfl, rfl⟩

end TM
